import Mathlib

/-!
Verification of the managed_json library (harald-lang/managed_json).

The library wraps a plain JSON-shaped tree in a recursive proxy that intercepts
writes and deletes, records every mutation in a redo log stored at the reserved
root key "__versioning__", emits change events carrying a log sequence number,
and supports read-only replicas advanced by applying change events in order.

Shallow embedding notes.
- A JavaScript plain value is modelled by the inductive type JsValue below:
  null, booleans, numbers (modelled as integers; no claim depends on
  non-integral numbers), strings, arrays and string-keyed objects whose field
  lists keep JavaScript insertion order.  The absent value (undefined) is
  modelled by Option.none at use sites.
- Lean values are immutable, so the deep-copy boundary of the source (lodash
  cloneDeep) is the identity here; aliasing effects that deep copies prevent
  are discussed where relevant.
- Mutations of array elements (numeric index writes, the length property) are
  outside the mutation model: views are only taken over object nodes and log
  paths only traverse objects.  Array values are still first-class data and
  array elements are readable.
- A managed document is modelled by the structure Doc: the user tree (the root
  object without the "__versioning__" field) together with the redo log.  A
  view over the document is identified by its absolute path from the root; a
  write through a view whose path still resolves to its node is a live write,
  and a write through a view whose node was deleted from the tree is an orphan
  write (the source then mutates a detached object invisible to the root and
  still appends a log entry).
-/

/-- A JavaScript plain (JSON-shaped) value. -/
inductive JsValue where
  | vnull  : JsValue
  | vbool  : Bool → JsValue
  | vnum   : Int → JsValue
  | vstr   : String → JsValue
  | varr   : List JsValue → JsValue
  | vobj   : List (String × JsValue) → JsValue
  deriving Repr

namespace JsValue

/-- Lookup of an own property in an object field list (first binding wins;
JavaScript objects never hold a key twice). -/
def lookupField : List (String × JsValue) → String → Option JsValue
  | [], _ => none
  | (k', v) :: rest, k => if k' = k then some v else lookupField rest k

/-- JavaScript property write on an object field list: an existing key is
updated in place keeping its position, a new key is appended at the end. -/
def setField : List (String × JsValue) → String → JsValue → List (String × JsValue)
  | [], k, v => [(k, v)]
  | (k', v') :: rest, k, v =>
    if k' = k then (k, v) :: rest else (k', v') :: setField rest k v

/-- JavaScript property deletion on an object field list.  Deleting an absent
key is a silent no-op (the delete operator still reports success). -/
def removeField : List (String × JsValue) → String → List (String × JsValue)
  | [], _ => []
  | (k', v) :: rest, k =>
    if k' = k then removeField rest k else (k', v) :: removeField rest k

/-- JavaScript truthiness of a value (undefined, handled as Option.none at use
sites, is falsy as well). -/
def truthy : JsValue → Bool
  | vnull => false
  | vbool b => b
  | vnum n => n ≠ 0
  | vstr s => s ≠ ""
  | varr _ => true
  | vobj _ => true

/-- Decimal value of a digit character. -/
def digit? (c : Char) : Option Nat :=
  if c = '0' then some 0 else if c = '1' then some 1 else if c = '2' then some 2
  else if c = '3' then some 3 else if c = '4' then some 4 else if c = '5' then some 5
  else if c = '6' then some 6 else if c = '7' then some 7 else if c = '8' then some 8
  else if c = '9' then some 9 else none

/-- Value of a digit sequence, most significant first. -/
def parseDigits : List Char → Nat → Option Nat
  | [], acc => some acc
  | c :: cs, acc =>
    match digit? c with
    | some d => parseDigits cs (acc * 10 + d)
    | none => none

/-- A canonical decimal array index: a non-empty digit string without leading
zeros (JavaScript array indices are canonical number strings, so "01" is an
ordinary property, not the index 1). -/
def parseIndex (k : String) : Option Nat :=
  match k.data with
  | [] => none
  | ['0'] => some 0
  | '0' :: _ :: _ => none
  | cs => parseDigits cs 0

/-- Property read o[k].  Objects use own-field lookup; arrays answer canonical
decimal indices (the length property and string indexing are not needed by any
claim and are not modelled).  Property reads on scalars yield undefined. -/
def getKey : JsValue → String → Option JsValue
  | vobj fs, k => lookupField fs k
  | varr xs, k =>
    match parseIndex k with
    | some i => xs.get? i
    | none => none
  | _, _ => none

/-- Plain navigation along a path of keys, as a chain of property reads.  This
is how a nested view's target object is located in the current tree. -/
def nodeAt : JsValue → List String → Option JsValue
  | t, [] => some t
  | t, k :: p => match getKey t k with
    | some n => nodeAt n p
    | none => none

/-- Distinctness of the keys of a field list (JavaScript objects cannot hold a
key twice, so every value reachable from the host language satisfies this). -/
def keysDistinct : List (String × JsValue) → Bool
  | [] => true
  | (k, _) :: rest => !(rest.any (fun kv => kv.1 = k)) && keysDistinct rest

mutual

/-- Well-formedness of a value as an image of a JavaScript value: every object
node has pairwise distinct keys. -/
def WFv : JsValue → Bool
  | vnull => true
  | vbool _ => true
  | vnum _ => true
  | vstr _ => true
  | varr xs => WFvArr xs
  | vobj fs => keysDistinct fs && WFvFields fs

/-- Well-formedness of every element of an array. -/
def WFvArr : List JsValue → Bool
  | [] => true
  | x :: xs => WFv x && WFvArr xs

/-- Well-formedness of every value of an object field list. -/
def WFvFields : List (String × JsValue) → Bool
  | [] => true
  | (_, v) :: fs => WFv v && WFvFields fs

end

mutual

/-- Syntactic (structural) equality test on values.  This is finer than the
structural-equality predicate of lodash (jsEqual below), which ignores object
key order; it serves only to decide Lean equality of values. -/
def beqJs : JsValue → JsValue → Bool
  | vnull, vnull => true
  | vbool a, vbool b => a == b
  | vnum a, vnum b => a == b
  | vstr a, vstr b => a == b
  | varr xs, varr ys => beqJsArr xs ys
  | vobj fs, vobj gs => beqJsFields fs gs
  | _, _ => false

/-- Pointwise syntactic equality of arrays. -/
def beqJsArr : List JsValue → List JsValue → Bool
  | [], [] => true
  | x :: xs, y :: ys => beqJs x y && beqJsArr xs ys
  | _, _ => false

/-- Pointwise syntactic equality of field lists (order-sensitive). -/
def beqJsFields : List (String × JsValue) → List (String × JsValue) → Bool
  | [], [] => true
  | (k, v) :: fs, (k', v') :: gs => k == k' && beqJs v v' && beqJsFields fs gs
  | _, _ => false

end

mutual

theorem beqJs_refl : ∀ a, beqJs a a = true
  | vnull => rfl
  | vbool a => by simp [beqJs]
  | vnum a => by simp [beqJs]
  | vstr a => by simp [beqJs]
  | varr xs => by simp [beqJs, beqJsArr_refl xs]
  | vobj fs => by simp [beqJs, beqJsFields_refl fs]

theorem beqJsArr_refl : ∀ xs, beqJsArr xs xs = true
  | [] => rfl
  | x :: xs => by simp [beqJsArr, beqJs_refl x, beqJsArr_refl xs]

theorem beqJsFields_refl : ∀ fs, beqJsFields fs fs = true
  | [] => rfl
  | (k, v) :: fs => by simp [beqJsFields, beqJs_refl v, beqJsFields_refl fs]

end

mutual

theorem eq_of_beqJs : ∀ a b, beqJs a b = true → a = b
  | vnull, vnull, _ => rfl
  | vbool a, vbool b, h => by simpa [beqJs] using h
  | vnum a, vnum b, h => by simpa [beqJs] using h
  | vstr a, vstr b, h => by simpa [beqJs] using h
  | varr xs, varr ys, h => by
    have := eq_of_beqJsArr xs ys (by simpa [beqJs] using h)
    simp [this]
  | vobj fs, vobj gs, h => by
    have := eq_of_beqJsFields fs gs (by simpa [beqJs] using h)
    simp [this]

theorem eq_of_beqJsArr : ∀ xs ys, beqJsArr xs ys = true → xs = ys
  | [], [], _ => rfl
  | x :: xs, y :: ys, h => by
    have h1 : beqJs x y = true := by
      simpa [beqJsArr] using And.left (by simpa [beqJsArr, Bool.and_eq_true] using h)
    have h2 : beqJsArr xs ys = true := by
      simpa [beqJsArr] using And.right (by simpa [beqJsArr, Bool.and_eq_true] using h)
    rw [eq_of_beqJs x y h1, eq_of_beqJsArr xs ys h2]

theorem eq_of_beqJsFields : ∀ fs gs, beqJsFields fs gs = true → fs = gs
  | [], [], _ => rfl
  | (k, v) :: fs, (k', v') :: gs, h => by
    have h' := by simpa [beqJsFields, Bool.and_eq_true] using h
    obtain ⟨⟨hk, hv⟩, hrest⟩ := h'
    have hk' : k = k' := by simpa using hk
    rw [hk', eq_of_beqJs v v' hv, eq_of_beqJsFields fs gs hrest]

end

instance : DecidableEq JsValue := fun a b =>
  if h : beqJs a b = true then isTrue (eq_of_beqJs a b h)
  else isFalse (fun e => h (e ▸ beqJs_refl a))

end JsValue

namespace JsValue

mutual

/-- Structural equality as computed by the lodash isEqual contract on plain
JSON-shaped data: scalars compare by value, arrays pointwise, objects by
comparing the number of own keys and, for every key of the left object, the
value stored under the same key in the right object (insertion order of keys
is irrelevant). -/
def jsEqual : JsValue → JsValue → Bool
  | vnull, vnull => true
  | vbool a, vbool b => a == b
  | vnum a, vnum b => a == b
  | vstr a, vstr b => a == b
  | varr xs, varr ys => jsEqualArr xs ys
  | vobj fs, vobj gs => fs.length == gs.length && jsEqualFields fs gs
  | _, _ => false

/-- Pointwise structural equality of arrays. -/
def jsEqualArr : List JsValue → List JsValue → Bool
  | [], [] => true
  | x :: xs, y :: ys => jsEqual x y && jsEqualArr xs ys
  | _, _ => false

/-- Every field of the left list is present in the right list with a
structurally equal value. -/
def jsEqualFields : List (String × JsValue) → List (String × JsValue) → Bool
  | [], _ => true
  | (k, v) :: fs, gs =>
    (match lookupField gs k with
     | some w => jsEqual v w
     | none => false) && jsEqualFields fs gs

end

end JsValue

open JsValue

/-! The redo-log data model (class LogEntry of the source). -/

/-- Kinds of mutation recorded in the log (the OperationType enumeration). -/
inductive OperationType where
  | opset : OperationType
  | opdelete : OperationType
  deriving DecidableEq, Repr

/-- The wire string of an operation kind. -/
def OperationType.str : OperationType → String
  | .opset => "set"
  | .opdelete => "delete"

/-- A redo-log entry: an operation, an absolute key path from the root and a
value (null for deletions).  The source stores these as plain objects inside
the tree; logEntryToJson and parseLogEntry translate.  Path components are
strings (isValidProperty admits only string keys, and array index paths are
outside the mutation model). -/
structure LogEntry where
  op : OperationType
  path : List String
  value : JsValue
  deriving DecidableEq, Repr

/-- The JSON object form of a log entry, as stored under
__versioning__.log in the managed tree. -/
def logEntryToJson (e : LogEntry) : JsValue :=
  .vobj [("op", .vstr e.op.str), ("path", .varr (e.path.map .vstr)), ("value", e.value)]

/-- Reads a string, failing on any other value. -/
def asString : JsValue → Option String
  | .vstr s => some s
  | _ => none

/-- Decodes an operation name (OperationType.isValid plus the switch). -/
def opOfString : String → Option OperationType
  | "set" => some .opset
  | "delete" => some .opdelete
  | _ => none

/-- Decodes every element of a list, failing when any element fails. -/
def mapMOption {α β : Type} (f : α → Option β) : List α → Option (List β)
  | [] => some []
  | x :: xs => do
    let y ← f x
    let ys ← mapMOption f xs
    some (y :: ys)

/-- Decodes a log entry from its JSON object form, mirroring LogEntry.isValid
followed by the field reads of LogEntry.apply: the value must be an object
with an op field naming a valid operation, an array path field and a value
field.  (isValid only checks that path is an array; entries whose path holds
non-strings are outside the mutation model and rejected here.) -/
def parseLogEntry (j : JsValue) : Option LogEntry := do
  match j with
  | .vobj fs =>
    let opj ← lookupField fs "op"
    let ops ← asString opj
    let op ← opOfString ops
    let pj ← lookupField fs "path"
    let path ← (match pj with
      | .varr xs => mapMOption asString xs
      | _ => none)
    let value ← lookupField fs "value"
    some ⟨op, path, value⟩
  | _ => none

/-! Path mutation, shared by LogEntry.apply and the proxy write traps.

LogEntry.apply walks the tree along path[0 .. n-2] by property reads and then
assigns (or deletes) the final key on the reached container.  The set trap of
the proxy performs Reflect.set(target, key, value) on the view's target node
and the delete trap performs Reflect.deleteProperty(target, key); for a live
view whose target is the node at its path p, this is exactly the same walk
along p followed by the same final assignment or deletion, so both are
rendered by the two functions below applied at path p ++ [key].

Failure (Option.none) renders a raised TypeError: assigning a property on a
scalar or null in strict mode throws, and walking through an absent property
throws on the next access.  Mutating array containers (numeric index writes,
length) is outside the model, as is the silent no-op of the delete operator on
scalar containers.  An empty path makes the source recurse into an undefined
child and throw, hence none. -/

/-- Sets the value at a non-empty key path: setPathRec of LogEntry.apply, and
equally Reflect.set on the node at the leading path. -/
def setPath : JsValue → List String → JsValue → Option JsValue
  | _, [], _ => none
  | t, k :: p, v =>
    match p with
    | [] =>
      match t with
      | .vobj fs => some (.vobj (setField fs k v))
      | _ => none
    | _ :: _ => do
      let child ← getKey t k
      let child' ← setPath child p v
      match t with
      | .vobj fs => some (.vobj (setField fs k child'))
      | _ => none

/-- Deletes the key at a non-empty key path: deletePathRec of LogEntry.apply,
and equally Reflect.deleteProperty on the node at the leading path.  Deleting
an absent final key succeeds and leaves the object unchanged. -/
def delPath : JsValue → List String → Option JsValue
  | _, [] => none
  | t, k :: p =>
    match p with
    | [] =>
      match t with
      | .vobj fs => some (.vobj (removeField fs k))
      | _ => none
    | _ :: _ => do
      let child ← getKey t k
      let child' ← delPath child p
      match t with
      | .vobj fs => some (.vobj (setField fs k child'))
      | _ => none

/-- LogEntry.apply: replays one log entry against a plain tree.  The entry is
well-formed by the typing of LogEntry (isValid); the deep copy taken of a SET
value is the identity here. -/
def LogEntry.applyTo (t : JsValue) (e : LogEntry) : Option JsValue :=
  match e.op with
  | .opset => setPath t e.path e.value
  | .opdelete => delPath t e.path

/-! The managed document (class ManagedJson of the source). -/

/-- The reserved root property holding the versioning data. -/
def VERSIONING_DATA_PROP : String := "__versioning__"

/-- A managed document, split into the user tree (the root object with the
reserved "__versioning__" field taken out) and the decoded redo log stored
under that field.  The source keeps both in one root object; encodeRoot
recombines them. -/
structure Doc where
  tree : JsValue
  log : List LogEntry
  deriving DecidableEq, Repr

namespace ManagedJson

/-- The JSON form of the versioning block of a document: an object holding the
log array. -/
def versioningJson (log : List LogEntry) : JsValue :=
  .vobj [("log", .varr (log.map logEntryToJson))]

/-- The underlying root object of a managed document, versioning block
included.  A fresh document installs the versioning block as a new root key,
which JavaScript appends after the user fields. -/
def encodeRoot (d : Doc) : JsValue :=
  match d.tree with
  | .vobj fs => .vobj (fs ++ [(VERSIONING_DATA_PROP, versioningJson d.log)])
  | t => t

/-- Replays the redo log up to and including entry versionId: deep-clones the
value of entry 0 and applies entries 1 .. versionId in order (the loop shared
by ManagedJson.create and ManagedJson.restoreVersion).  None renders a raised
error: a missing entry 0, or a failing LogEntry.apply. -/
def replayUpTo (es : List LogEntry) (versionId : Nat) : Option JsValue :=
  match es with
  | [] => none
  | e0 :: rest => (rest.take versionId).foldlM LogEntry.applyTo e0.value

/-- ManagedJson.create.  A proxy argument would fail the isManaged check and
is out of the model.  isManageable rejects null (isNil) and arrays but admits
every scalar; the working copy is cloneDeep(object) with the empty object
substituted when the clone is falsy.  Hence an object input proceeds with its
clone; a truthy scalar keeps the scalar as the working copy, and installing
the versioning block on a primitive then raises a TypeError in strict mode;
a falsy scalar (0, the empty string, false) is silently replaced by the empty
object, and create succeeds with an empty tree whose entry 0 holds a clone of
the original scalar.  For an object carrying a truthy "__versioning__" value
the log is validated by replaying it and comparing the result with the clone
minus the versioning data using the structural equality of lodash; otherwise
a fresh versioning block is installed whose entry 0 is a SET of the whole
original value — including a falsy "__versioning__" field of the input, which
the block then overwrites in the root.  All deep copies are the identity
here. -/
def create (input : JsValue) : Option Doc :=
  match input with
  | .vobj fs =>
    match lookupField fs VERSIONING_DATA_PROP with
    | some vv =>
      if truthy vv then
        match getKey vv "log" with
        | some (.varr es) =>
          match mapMOption parseLogEntry es with
          | some entries =>
            match replayUpTo entries (entries.length - 1) with
            | some a =>
              let b := JsValue.vobj (removeField fs VERSIONING_DATA_PROP)
              if jsEqual a b then some ⟨b, entries⟩ else none
            | none => none
          | none => none
        | _ => none
      else
        some ⟨.vobj (removeField fs VERSIONING_DATA_PROP), [⟨.opset, [], .vobj fs⟩]⟩
    | none =>
      some ⟨.vobj (removeField fs VERSIONING_DATA_PROP), [⟨.opset, [], .vobj fs⟩]⟩
  | .varr _ => none
  | .vnull => none
  | v =>
    if truthy v then none
    else some ⟨.vobj [], [⟨.opset, [], v⟩]⟩

/-- ManagedJson.versionCount: the length of the log. -/
def versionCount (d : Doc) : Nat := d.log.length

/-- ManagedJson.detachPreserveVersionData: a deep copy of the whole root,
versioning data included. -/
def detachPreserveVersionData (d : Doc) : JsValue := encodeRoot d

/-- Deletion of a root-level "__versioning__" field from a copied value, the
final step of ManagedJson.detach (a silent no-op on values that are not
objects or lack the key). -/
def stripRootVersioning : JsValue → JsValue
  | .vobj fs => .vobj (removeField fs VERSIONING_DATA_PROP)
  | t => t

/-- ManagedJson.detach on the view at viewPath: a deep copy of the view's
node (the deep copy of a proxy reads exactly the node at the view's path)
with a root-level "__versioning__" field deleted from the copy.  None renders
a view whose node is gone, for which cloneDeep of the proxy still succeeds on
the detached target; a detach through a live view is total. -/
def detach (d : Doc) (viewPath : List String) : Option JsValue :=
  (nodeAt (encodeRoot d) viewPath).map stripRootVersioning

/-- Truthy navigation of ManagedJson.restoreVersion: walks the reconstructed
tree along the view's path, stepping only into truthy children; a falsy or
absent child makes the walk return undefined (none). -/
def nav : JsValue → List String → Option JsValue
  | o, [] => some o
  | o, k :: p =>
    match getKey o k with
    | some n => if truthy n then nav n p else none
    | none => none

/-- ManagedJson.restoreVersion on the view at viewPath.  The outer Option
renders a raised error (version id out of range, or a failing replay); the
inner Option is the returned value, none standing for undefined (the nav
helper returns undefined when the path fails to resolve through truthy
values). -/
def restoreVersion (d : Doc) (viewPath : List String) (versionId : Nat) :
    Option (Option JsValue) :=
  if versionId < d.log.length then
    (replayUpTo d.log versionId).map (fun o => nav o viewPath)
  else
    none

/-- A change event: the log sequence number (the index of the appended entry)
and a frozen deep copy of the entry. -/
structure ChangeEvent where
  lsn : Int
  logEntry : LogEntry
  deriving DecidableEq, Repr

/-- Views whose path starts at the versioning block are read-only: the get
trap forces the read-only flag as soon as the path enters
"__versioning__", and child views inherit it. -/
def readOnlyView (viewPath : List String) : Bool :=
  viewPath.head? = some VERSIONING_DATA_PROP

end ManagedJson

namespace ManagedJson

/-- The set trap of the interception layer (createProxyHandler.set), acting on
the document state through the view at viewPath.  In order, as in the source:
a read-only view raises; the key is a string by typing (isValidProperty) and
every modelled value passes isAssignable, since functions, symbols and
class-typed instances lie outside JsValue while a proxied managed view is
observed by the isAssignable walk as its plain underlying data and passes too;
Reflect.set is forwarded to the view's target; on success one log entry is
pushed onto the log fetched from the root AFTER the write, and one change
event is emitted.

Three shapes arise.  A root-level write of the "__versioning__" key itself
replaces the versioning block, so the subsequent log fetch reads the log of
the NEW block and pushes the entry there (a foreign log array that does not
decode to entries is rejected at the model boundary).  A live view writes to
the node at its path.  A view whose node no longer resolves holds a detached
target: Reflect.set succeeds invisibly to the root, and the log entry and
event are still produced (orphan write). -/
def trapSet (d : Doc) (viewPath : List String) (key : String) (v : JsValue) :
    Option (Doc × ChangeEvent) :=
  if readOnlyView viewPath then none
  else if viewPath = [] ∧ key = VERSIONING_DATA_PROP then
    match getKey v "log" with
    | some (.varr es) =>
      match mapMOption parseLogEntry es with
      | some entries =>
        let e : LogEntry := ⟨.opset, [key], v⟩
        let log' := entries ++ [e]
        some (⟨d.tree, log'⟩, ⟨(log'.length : Int) - 1, e⟩)
      | none => none
    | _ => none
  else
    match setPath d.tree (viewPath ++ [key]) v with
    | some t' =>
      let e : LogEntry := ⟨.opset, viewPath ++ [key], v⟩
      let log' := d.log ++ [e]
      some (⟨t', log'⟩, ⟨(log'.length : Int) - 1, e⟩)
    | none =>
      match nodeAt d.tree viewPath with
      | none =>
        let e : LogEntry := ⟨.opset, viewPath ++ [key], v⟩
        let log' := d.log ++ [e]
        some (⟨d.tree, log'⟩, ⟨(log'.length : Int) - 1, e⟩)
      | some _ => none

/-- The delete trap (createProxyHandler.deleteProperty), acting on the
document state through the view at viewPath.  A read-only view raises;
otherwise Reflect.deleteProperty is forwarded and on success a DELETE entry
with a null value is pushed and a change event emitted.  A root-level delete
of "__versioning__" itself removes the versioning block and then raises while
fetching the log from the mutated root, so no entry is appended (the source
loses the block in that case; the model renders the raise as plain failure).
A view whose node no longer resolves deletes on its detached target and still
appends and emits (orphan delete). -/
def trapDelete (d : Doc) (viewPath : List String) (key : String) :
    Option (Doc × ChangeEvent) :=
  if readOnlyView viewPath then none
  else if viewPath = [] ∧ key = VERSIONING_DATA_PROP then none
  else
    match delPath d.tree (viewPath ++ [key]) with
    | some t' =>
      let e : LogEntry := ⟨.opdelete, viewPath ++ [key], .vnull⟩
      let log' := d.log ++ [e]
      some (⟨t', log'⟩, ⟨(log'.length : Int) - 1, e⟩)
    | none =>
      match nodeAt d.tree viewPath with
      | none =>
        let e : LogEntry := ⟨.opdelete, viewPath ++ [key], .vnull⟩
        let log' := d.log ++ [e]
        some (⟨d.tree, log'⟩, ⟨(log'.length : Int) - 1, e⟩)
      | some _ => none

/-- One mutation request through a view: a SET of a key to a value or a DELETE
of a key. -/
inductive Mutation where
  | mset (viewPath : List String) (key : String) (value : JsValue) : Mutation
  | mdelete (viewPath : List String) (key : String) : Mutation

/-- Runs one mutation through the corresponding trap. -/
def applyMutation (d : Doc) : Mutation → Option (Doc × ChangeEvent)
  | .mset p k v => trapSet d p k v
  | .mdelete p k => trapDelete d p k

/-- A mutation that replaces the versioning block at the root (the unguarded
write of the reserved key on the root view). -/
def Mutation.replacesVersioning : Mutation → Prop
  | .mset p k _ => p = [] ∧ k = VERSIONING_DATA_PROP
  | .mdelete _ _ => False

/-- The managed documents: a document freshly created from a plain object that
carries no root "__versioning__" key, mutated through any sequence of
successful live-view writes and deletes that never target the versioning
block at the root.  Orphan writes (through views whose node was deleted or
replaced) and the unguarded root-level replacement of the versioning block
are excluded here; the claims C3 and C7 settle what the source does on those.
The well-formedness hypotheses hold for every value a JavaScript caller can
pass (object keys are unique in the host language). -/
inductive Reach : Doc → Prop where
  | init (fs : List (String × JsValue)) (d : Doc)
      (hwf : WFv (.vobj fs) = true)
      (hv : lookupField fs VERSIONING_DATA_PROP = none)
      (hc : create (.vobj fs) = some d) : Reach d
  | step_set (d d' : Doc) (ev : ChangeEvent) (p : List String) (k : String) (v : JsValue)
      (hd : Reach d) (hwf : WFv v = true)
      (hroot : ¬(p = [] ∧ k = VERSIONING_DATA_PROP))
      (hlive : (setPath d.tree (p ++ [k]) v).isSome)
      (hs : trapSet d p k v = some (d', ev)) : Reach d'
  | step_delete (d d' : Doc) (ev : ChangeEvent) (p : List String) (k : String)
      (hd : Reach d)
      (hroot : ¬(p = [] ∧ k = VERSIONING_DATA_PROP))
      (hlive : (delPath d.tree (p ++ [k])).isSome)
      (hs : trapDelete d p k = some (d', ev)) : Reach d'

end ManagedJson

/-! The read-only replica (class Replica of the source).

A replica's private state is its root object, one JsValue holding the user
data together with the versioning block — an object stored under
"__versioning__" carrying the stored log sequence number under "lsn".
LogEntry.apply acts on this whole root, so a log entry whose path enters
"__versioning__" mutates or replaces the block itself; keeping the block
inside the root is what makes that behavior expressible. -/

namespace Replica

end Replica

/-! Auxiliary lemmas on field lists and well-formedness. -/

namespace JsValue

theorem removeField_of_lookup_none : ∀ fs k, lookupField fs k = none → removeField fs k = fs
  | [], _, _ => rfl
  | (k', v) :: rest, k, h => by
    by_cases hk : k' = k
    · simp [lookupField, hk] at h
    · simp only [lookupField, if_neg hk] at h
      simp [removeField, hk, removeField_of_lookup_none rest k h]

theorem lookupField_append_left : ∀ fs gs k, lookupField fs k = none →
    lookupField (fs ++ gs) k = lookupField gs k
  | [], _, _, _ => rfl
  | (k', v) :: rest, gs, k, h => by
    by_cases hk : k' = k
    · simp [lookupField, hk] at h
    · simp only [lookupField, if_neg hk] at h
      simp [lookupField, if_neg hk, lookupField_append_left rest gs k h]

theorem removeField_append : ∀ fs gs (k : String),
    removeField (fs ++ gs) k = removeField fs k ++ removeField gs k
  | [], _, _ => rfl
  | (k', v) :: rest, gs, k => by
    by_cases hk : k' = k
    · simp [removeField, hk, removeField_append rest gs k]
    · simp [removeField, hk, removeField_append rest gs k]

theorem lookupField_setField_ne : ∀ fs k v q, q ≠ k →
    lookupField (setField fs k v) q = lookupField fs q
  | [], k, v, q, h => by simp [setField, lookupField, Ne.symm h]
  | (k', v') :: rest, k, v, q, h => by
    by_cases hk : k' = k
    · subst hk
      have hne : ¬ k' = q := fun e => h e.symm
      simp [setField, lookupField, hne]
    · by_cases hq : k' = q
      · subst hq
        simp [setField, if_neg hk, lookupField]
      · simp [setField, if_neg hk, lookupField, hq, lookupField_setField_ne rest k v q h]

theorem lookupField_removeField_ne : ∀ fs k q, q ≠ k →
    lookupField (removeField fs k) q = lookupField fs q
  | [], _, _, _ => rfl
  | (k', v') :: rest, k, q, h => by
    by_cases hk : k' = k
    · subst hk
      have hne : ¬ k' = q := fun e => h e.symm
      simp [removeField, lookupField, hne, lookupField_removeField_ne rest k' q h]
    · by_cases hq : k' = q
      · subst hq
        simp [removeField, if_neg hk, lookupField]
      · simp [removeField, if_neg hk, lookupField, hq, lookupField_removeField_ne rest k q h]

theorem any_fst_setField : ∀ fs k v (q : String), q ≠ k →
    (setField fs k v).any (fun kv => kv.1 = q) = fs.any (fun kv => kv.1 = q)
  | [], k, v, q, h => by
    have hne : ¬ k = q := fun e => h e.symm
    simp [setField, hne]
  | (k', v') :: rest, k, v, q, h => by
    by_cases hk : k' = k
    · subst hk
      simp [setField, List.any_cons]
    · simp [setField, if_neg hk, List.any_cons, any_fst_setField rest k v q h]

theorem keysDistinct_setField : ∀ fs k v, keysDistinct fs = true →
    keysDistinct (setField fs k v) = true
  | [], k, v, _ => by simp [setField, keysDistinct]
  | (k', v') :: rest, k, v, h => by
    simp only [keysDistinct, Bool.and_eq_true, Bool.not_eq_true'] at h
    obtain ⟨hna, hrest⟩ := h
    by_cases hk : k' = k
    · subst hk
      simp only [setField, if_pos rfl, keysDistinct, Bool.and_eq_true, Bool.not_eq_true']
      exact ⟨hna, hrest⟩
    · simp only [setField, if_neg hk, keysDistinct, Bool.and_eq_true, Bool.not_eq_true']
      refine ⟨?_, keysDistinct_setField rest k v hrest⟩
      rw [any_fst_setField rest k v k' hk]
      exact hna

theorem WFvFields_setField : ∀ fs k v, WFvFields fs = true → WFv v = true →
    WFvFields (setField fs k v) = true
  | [], k, v, _, hv => by simp [setField, WFvFields, hv]
  | (k', v') :: rest, k, v, h, hv => by
    simp only [WFvFields, Bool.and_eq_true] at h
    obtain ⟨hv', hrest⟩ := h
    by_cases hk : k' = k
    · simp [setField, hk, WFvFields, hv, hrest]
    · simp [setField, hk, WFvFields, hv', WFvFields_setField rest k v hrest hv]

theorem any_fst_removeField_false : ∀ fs (k q : String),
    fs.any (fun kv => kv.1 = q) = false →
    (removeField fs k).any (fun kv => kv.1 = q) = false
  | [], _, _, _ => rfl
  | (k', v') :: rest, k, q, h => by
    simp only [List.any_cons, Bool.or_eq_false_iff] at h
    obtain ⟨h1, h2⟩ := h
    by_cases hk : k' = k
    · simp only [removeField, if_pos hk]
      exact any_fst_removeField_false rest k q h2
    · simp only [removeField, if_neg hk, List.any_cons, Bool.or_eq_false_iff]
      exact ⟨h1, any_fst_removeField_false rest k q h2⟩

theorem keysDistinct_removeField : ∀ fs k, keysDistinct fs = true →
    keysDistinct (removeField fs k) = true
  | [], _, _ => rfl
  | (k', v') :: rest, k, h => by
    simp only [keysDistinct, Bool.and_eq_true, Bool.not_eq_true'] at h
    obtain ⟨hna, hrest⟩ := h
    by_cases hk : k' = k
    · simp only [removeField, if_pos hk]
      exact keysDistinct_removeField rest k hrest
    · simp only [removeField, if_neg hk, keysDistinct, Bool.and_eq_true, Bool.not_eq_true']
      exact ⟨any_fst_removeField_false rest k k' hna, keysDistinct_removeField rest k hrest⟩

theorem WFvFields_removeField : ∀ fs k, WFvFields fs = true →
    WFvFields (removeField fs k) = true
  | [], _, _ => rfl
  | (k', v') :: rest, k, h => by
    simp only [WFvFields, Bool.and_eq_true] at h
    obtain ⟨hv', hrest⟩ := h
    by_cases hk : k' = k
    · simp only [removeField, if_pos hk]
      exact WFvFields_removeField rest k hrest
    · simp only [removeField, if_neg hk, WFvFields, Bool.and_eq_true]
      exact ⟨hv', WFvFields_removeField rest k hrest⟩

theorem WFv_lookupField : ∀ fs k v, WFvFields fs = true → lookupField fs k = some v →
    WFv v = true
  | [], _, _, _, h => by simp [lookupField] at h
  | (k', v') :: rest, k, v, hwf, h => by
    simp only [WFvFields, Bool.and_eq_true] at hwf
    obtain ⟨hv', hrest⟩ := hwf
    by_cases hk : k' = k
    · simp only [lookupField, if_pos hk, Option.some.injEq] at h
      exact h ▸ hv'
    · simp only [lookupField, if_neg hk] at h
      exact WFv_lookupField rest k v hrest h

theorem WFv_arr_get? : ∀ xs (i : Nat) x, WFvArr xs = true → xs.get? i = some x →
    WFv x = true
  | [], i, x, _, h => by simp at h
  | y :: ys, 0, x, hwf, h => by
    simp only [WFvArr, Bool.and_eq_true] at hwf
    simp only [List.get?] at h
    cases h
    exact hwf.1
  | y :: ys, i + 1, x, hwf, h => by
    simp only [WFvArr, Bool.and_eq_true] at hwf
    simp only [List.get?] at h
    exact WFv_arr_get? ys i x hwf.2 h

theorem WFv_getKey (t : JsValue) (k : String) (n : JsValue) (hwf : WFv t = true)
    (h : getKey t k = some n) : WFv n = true := by
  cases t with
  | vobj fs =>
    simp only [WFv, Bool.and_eq_true] at hwf
    exact WFv_lookupField fs k n hwf.2 h
  | varr xs =>
    simp only [WFv] at hwf
    simp only [getKey] at h
    cases hnat : parseIndex k with
    | none => simp [hnat] at h
    | some i =>
      simp only [hnat] at h
      exact WFv_arr_get? xs i n hwf h
  | vnull => simp [getKey] at h
  | vbool b => simp [getKey] at h
  | vnum m => simp [getKey] at h
  | vstr s => simp [getKey] at h

end JsValue

namespace JsValue

theorem lookupField_of_mem_distinct : ∀ fs (k : String) (v : JsValue),
    keysDistinct fs = true → (k, v) ∈ fs → lookupField fs k = some v
  | [], _, _, _, hm => absurd hm (List.not_mem_nil _)
  | (k', v') :: rest, k, v, hd, hm => by
    simp only [keysDistinct, Bool.and_eq_true, Bool.not_eq_true'] at hd
    obtain ⟨hna, hrest⟩ := hd
    rcases List.mem_cons.mp hm with heq | htail
    · obtain ⟨h1, h2⟩ := Prod.mk.injEq .. ▸ heq
      simp [lookupField, h1.symm, h2]
    · by_cases hk : k' = k
      · exfalso
        subst hk
        have : rest.any (fun kv => kv.1 = k') = true := by
          simp only [List.any_eq_true, decide_eq_true_eq]
          exact ⟨(k', v), htail, rfl⟩
        rw [hna] at this
        exact Bool.false_ne_true this
      · simp only [lookupField, if_neg hk]
        exact lookupField_of_mem_distinct rest k v hrest htail

mutual

theorem jsEqual_rfl : ∀ a, WFv a = true → jsEqual a a = true
  | vnull, _ => rfl
  | vbool a, _ => by simp [jsEqual]
  | vnum a, _ => by simp [jsEqual]
  | vstr a, _ => by simp [jsEqual]
  | varr xs, h => by
    simp only [WFv] at h
    simp only [jsEqual]
    exact jsEqualArr_rfl xs h
  | vobj fs, h => by
    simp only [WFv, Bool.and_eq_true] at h
    simp only [jsEqual, Bool.and_eq_true, beq_self_eq_true, true_and]
    exact jsEqualFields_super fs fs h.2
      (fun kv hm => lookupField_of_mem_distinct fs kv.1 kv.2 h.1 hm)

theorem jsEqualArr_rfl : ∀ xs, WFvArr xs = true → jsEqualArr xs xs = true
  | [], _ => rfl
  | x :: xs, h => by
    simp only [WFvArr, Bool.and_eq_true] at h
    simp only [jsEqualArr, Bool.and_eq_true]
    exact ⟨jsEqual_rfl x h.1, jsEqualArr_rfl xs h.2⟩

theorem jsEqualFields_super : ∀ fs gs, WFvFields fs = true →
    (∀ kv, kv ∈ fs → lookupField gs kv.1 = some kv.2) → jsEqualFields fs gs = true
  | [], _, _, _ => rfl
  | (k, v) :: fs, gs, hwf, hsub => by
    simp only [WFvFields, Bool.and_eq_true] at hwf
    simp only [jsEqualFields, Bool.and_eq_true]
    constructor
    · rw [hsub (k, v) (List.mem_cons_self _ _)]
      exact jsEqual_rfl v hwf.1
    · exact jsEqualFields_super fs gs hwf.2 (fun kv hm => hsub kv (List.mem_cons_of_mem _ hm))

end

end JsValue

/-! Preservation lemmas for path mutation, and replay lemmas. -/

theorem WFv_setPath : ∀ (p : List String) (t v t' : JsValue), WFv t = true →
    WFv v = true → setPath t p v = some t' → WFv t' = true
  | [], t, v, t', _, _, h => by simp [setPath] at h
  | [k], t, v, t', hwt, hwv, h => by
    cases t with
    | vobj fs =>
      simp only [setPath, Option.some.injEq] at h
      subst h
      simp only [WFv, Bool.and_eq_true] at hwt ⊢
      exact ⟨keysDistinct_setField fs k v hwt.1, WFvFields_setField fs k v hwt.2 hwv⟩
    | vnull => simp [setPath] at h
    | vbool b => simp [setPath] at h
    | vnum m => simp [setPath] at h
    | vstr s => simp [setPath] at h
    | varr xs => simp [setPath] at h
  | k :: q :: rest, t, v, t', hwt, hwv, h => by
    simp only [setPath, Option.bind_eq_bind, Option.bind_eq_some] at h
    obtain ⟨child, hchild, child', hchild', hcons⟩ := h
    have hwchild : WFv child = true := WFv_getKey t k child hwt hchild
    have hwchild' : WFv child' = true :=
      WFv_setPath (q :: rest) child v child' hwchild hwv hchild'
    cases t with
    | vobj fs =>
      simp only [Option.some.injEq] at hcons
      subst hcons
      simp only [WFv, Bool.and_eq_true] at hwt ⊢
      exact ⟨keysDistinct_setField fs k child' hwt.1,
        WFvFields_setField fs k child' hwt.2 hwchild'⟩
    | vnull => simp at hcons
    | vbool b => simp at hcons
    | vnum m => simp at hcons
    | vstr s => simp at hcons
    | varr xs => simp at hcons

theorem WFv_delPath : ∀ (p : List String) (t t' : JsValue), WFv t = true →
    delPath t p = some t' → WFv t' = true
  | [], t, t', _, h => by simp [delPath] at h
  | [k], t, t', hwt, h => by
    cases t with
    | vobj fs =>
      simp only [delPath, Option.some.injEq] at h
      subst h
      simp only [WFv, Bool.and_eq_true] at hwt ⊢
      exact ⟨keysDistinct_removeField fs k hwt.1, WFvFields_removeField fs k hwt.2⟩
    | vnull => simp [delPath] at h
    | vbool b => simp [delPath] at h
    | vnum m => simp [delPath] at h
    | vstr s => simp [delPath] at h
    | varr xs => simp [delPath] at h
  | k :: q :: rest, t, t', hwt, h => by
    simp only [delPath, Option.bind_eq_bind, Option.bind_eq_some] at h
    obtain ⟨child, hchild, child', hchild', hcons⟩ := h
    have hwchild : WFv child = true := WFv_getKey t k child hwt hchild
    have hwchild' : WFv child' = true := WFv_delPath (q :: rest) child child' hwchild hchild'
    cases t with
    | vobj fs =>
      simp only [Option.some.injEq] at hcons
      subst hcons
      simp only [WFv, Bool.and_eq_true] at hwt ⊢
      exact ⟨keysDistinct_setField fs k child' hwt.1,
        WFvFields_setField fs k child' hwt.2 hwchild'⟩
    | vnull => simp at hcons
    | vbool b => simp at hcons
    | vnum m => simp at hcons
    | vstr s => simp at hcons
    | varr xs => simp at hcons

/-- A non-empty path mutation on an object keeps top-level keys other than the
head of the path intact. -/
theorem lookupField_setPath_head : ∀ (k : String) (p : List String) fs v gs (q : String),
    setPath (.vobj fs) (k :: p) v = some (.vobj gs) → q ≠ k →
    lookupField gs q = lookupField fs q := by
  intro k p fs v gs q h hq
  cases p with
  | nil =>
    simp only [setPath, Option.some.injEq, JsValue.vobj.injEq] at h
    rw [← h]
    exact lookupField_setField_ne fs k v q hq
  | cons a rest =>
    simp only [setPath, Option.bind_eq_bind, Option.bind_eq_some] at h
    obtain ⟨child, hchild, child', hchild', hcons⟩ := h
    simp only [Option.some.injEq, JsValue.vobj.injEq] at hcons
    rw [← hcons]
    exact lookupField_setField_ne fs k child' q hq

theorem lookupField_delPath_head : ∀ (k : String) (p : List String) fs gs (q : String),
    delPath (.vobj fs) (k :: p) = some (.vobj gs) → q ≠ k →
    lookupField gs q = lookupField fs q := by
  intro k p fs gs q h hq
  cases p with
  | nil =>
    simp only [delPath, Option.some.injEq, JsValue.vobj.injEq] at h
    rw [← h]
    exact lookupField_removeField_ne fs k q hq
  | cons a rest =>
    simp only [delPath, Option.bind_eq_bind, Option.bind_eq_some] at h
    obtain ⟨child, hchild, child', hchild', hcons⟩ := h
    simp only [Option.some.injEq, JsValue.vobj.injEq] at hcons
    rw [← hcons]
    exact lookupField_setField_ne fs k child' q hq

/-- A successful non-empty path mutation leaves an object root an object. -/
theorem setPath_obj_of_obj : ∀ (k : String) (p : List String) fs v t',
    setPath (.vobj fs) (k :: p) v = some t' → ∃ gs, t' = JsValue.vobj gs := by
  intro k p fs v t' h
  cases p with
  | nil =>
    simp only [setPath, Option.some.injEq] at h
    exact ⟨_, h.symm⟩
  | cons a rest =>
    simp only [setPath, Option.bind_eq_bind, Option.bind_eq_some] at h
    obtain ⟨child, _, child', _, hcons⟩ := h
    simp only [Option.some.injEq] at hcons
    exact ⟨_, hcons.symm⟩

theorem delPath_obj_of_obj : ∀ (k : String) (p : List String) fs t',
    delPath (.vobj fs) (k :: p) = some t' → ∃ gs, t' = JsValue.vobj gs := by
  intro k p fs t' h
  cases p with
  | nil =>
    simp only [delPath, Option.some.injEq] at h
    exact ⟨_, h.symm⟩
  | cons a rest =>
    simp only [delPath, Option.bind_eq_bind, Option.bind_eq_some] at h
    obtain ⟨child, _, child', _, hcons⟩ := h
    simp only [Option.some.injEq] at hcons
    exact ⟨_, hcons.symm⟩

/-! Folding log entries in the Option monad. -/

theorem foldlM_option_append {α β : Type} (f : β → α → Option β) (b : β) :
    ∀ (l1 l2 : List α),
    List.foldlM f b (l1 ++ l2) = (List.foldlM f b l1).bind fun c => List.foldlM f c l2 := by
  intro l1
  induction l1 generalizing b with
  | nil => intro l2; simp [List.foldlM]
  | cons x xs ih =>
    intro l2
    simp only [List.cons_append, List.foldlM, Option.bind_eq_bind]
    cases f b x with
    | none => simp
    | some b' => simp only [Option.some_bind]; exact ih b' l2

theorem foldlM_option_take_isSome {α β : Type} (f : β → α → Option β) :
    ∀ (l : List α) (b : β), (List.foldlM f b l).isSome = true →
    ∀ (k : Nat), (List.foldlM f b (l.take k)).isSome = true := by
  intro l
  induction l with
  | nil => intro b h k; simp only [List.take_nil]; exact h
  | cons x xs ih =>
    intro b h k
    cases k with
    | zero => simp [List.take, List.foldlM]
    | succ k' =>
      simp only [List.take, List.foldlM, Option.bind_eq_bind] at h ⊢
      cases hfx : f b x with
      | none => rw [hfx] at h; simp at h
      | some b' =>
        rw [hfx] at h
        simp only [Option.some_bind] at h ⊢
        exact ih b' h k'

namespace ManagedJson

theorem replayUpTo_append (es : List LogEntry) (e : LogEntry) (h : es ≠ []) :
    replayUpTo (es ++ [e]) es.length =
      (replayUpTo es (es.length - 1)).bind fun t => LogEntry.applyTo t e := by
  cases es with
  | nil => exact absurd rfl h
  | cons e0 rest =>
    simp only [replayUpTo, List.cons_append, List.length_cons, Nat.add_sub_cancel]
    rw [List.take_of_length_le (by simp), List.take_of_length_le (le_refl _)]
    rw [foldlM_option_append]
    congr 1
    funext t
    simp [List.foldlM]

theorem replayUpTo_isSome_of_le (es : List LogEntry) (k : Nat)
    (h : (replayUpTo es (es.length - 1)).isSome = true) :
    (replayUpTo es k).isSome = true := by
  cases es with
  | nil => simp [replayUpTo] at h
  | cons e0 rest =>
    simp only [replayUpTo, List.length_cons, Nat.add_sub_cancel] at h ⊢
    rw [List.take_of_length_le (le_refl _)] at h
    exact foldlM_option_take_isSome _ rest e0.value h k

theorem replayUpTo_append_of_lt (es : List LogEntry) (e : LogEntry) (k : Nat)
    (hk : k < es.length) : replayUpTo (es ++ [e]) k = replayUpTo es k := by
  cases es with
  | nil => simp at hk
  | cons e0 rest =>
    simp only [replayUpTo, List.cons_append]
    rw [List.take_append_of_le_length (by simpa using Nat.lt_succ_iff.mp hk)]

end ManagedJson

/-! Encoding and decoding of log entries, and the fresh-create lemma. -/

theorem asString_mapM_map (p : List String) :
    mapMOption asString (p.map JsValue.vstr) = some p := by
  induction p with
  | nil => rfl
  | cons s rest ih => simp [mapMOption, asString, ih]

theorem parse_logEntryToJson (e : LogEntry) : parseLogEntry (logEntryToJson e) = some e := by
  cases e with
  | mk op path value =>
    cases op <;>
      simp [parseLogEntry, logEntryToJson, JsValue.lookupField, asString, OperationType.str,
        opOfString, asString_mapM_map]

theorem mapM_parse_map_encode (es : List LogEntry) :
    mapMOption parseLogEntry (es.map logEntryToJson) = some es := by
  induction es with
  | nil => rfl
  | cons e rest ih => simp [mapMOption, parse_logEntryToJson, ih]

namespace ManagedJson

theorem create_fresh (fs : List (String × JsValue))
    (hv : JsValue.lookupField fs VERSIONING_DATA_PROP = none) :
    create (.vobj fs) = some ⟨.vobj fs, [⟨.opset, [], .vobj fs⟩]⟩ := by
  simp [create, hv, JsValue.removeField_of_lookup_none fs _ hv]

/-- The standing invariant of the managed documents of Reach: the user tree is
a well-formed object without a root "__versioning__" key, the log is
non-empty, and replaying the whole log reproduces the user tree. -/
def DocInv (d : Doc) : Prop :=
  WFv d.tree = true ∧
  (∃ fs, d.tree = JsValue.vobj fs ∧ JsValue.lookupField fs VERSIONING_DATA_PROP = none) ∧
  d.log ≠ [] ∧
  replayUpTo d.log (d.log.length - 1) = some d.tree

theorem reach_inv {d : Doc} (h : Reach d) : DocInv d := by
  induction h with
  | init fs d hwf hv hc =>
    rw [create_fresh fs hv] at hc
    cases hc
    refine ⟨hwf, ⟨fs, rfl, hv⟩, by simp, ?_⟩
    simp [replayUpTo, List.take]
  | step_set d d' ev p k v hd hwf hroot hlive hs ih =>
    obtain ⟨hwt, ⟨fs, htree, hvfs⟩, hne, hreplay⟩ := ih
    obtain ⟨t', hsp⟩ := Option.isSome_iff_exists.mp hlive
    have hro : readOnlyView p = false := by
      by_contra hro
      simp only [Bool.not_eq_false] at hro
      simp [trapSet, hro] at hs
    have hs' : trapSet d p k v =
        some (⟨t', d.log ++ [⟨.opset, p ++ [k], v⟩]⟩,
          ⟨(d.log.length : Int), ⟨.opset, p ++ [k], v⟩⟩) := by
      simp only [trapSet, hro, Bool.false_eq_true, if_false, if_neg hroot, hsp]
      simp [Int.add_sub_cancel]
    rw [hs'] at hs
    simp only [Option.some.injEq, Prod.mk.injEq] at hs
    obtain ⟨hd', hev⟩ := hs
    rw [← hd']
    refine ⟨?_, ?_, by simp, ?_⟩
    · exact WFv_setPath (p ++ [k]) d.tree v t' hwt hwf hsp
    · rcases hcons : p ++ [k] with _ | ⟨k0, prest⟩
      · exact absurd hcons (by simp)
      · rw [htree, hcons] at hsp
        obtain ⟨gs, hgs⟩ := setPath_obj_of_obj k0 prest fs v t' hsp
        refine ⟨gs, hgs, ?_⟩
        have hk0 : VERSIONING_DATA_PROP ≠ k0 := by
          cases p with
          | nil =>
            simp only [List.nil_append, List.cons.injEq] at hcons
            intro e
            exact hroot ⟨rfl, (hcons.1 ▸ e.symm)⟩
          | cons a arest =>
            simp only [List.cons_append, List.cons.injEq] at hcons
            intro e
            rw [show a = VERSIONING_DATA_PROP from hcons.1.trans e.symm] at hro
            simp [readOnlyView] at hro
        rw [hgs] at hsp
        have := lookupField_setPath_head k0 prest fs v gs VERSIONING_DATA_PROP hsp hk0
        rw [this]
        exact hvfs
    · rw [show (d.log ++ [(⟨OperationType.opset, p ++ [k], v⟩ : LogEntry)]).length - 1
            = d.log.length by simp]
      rw [replayUpTo_append d.log _ hne, hreplay]
      simp [LogEntry.applyTo, hsp]
  | step_delete d d' ev p k hd hroot hlive hs ih =>
    obtain ⟨hwt, ⟨fs, htree, hvfs⟩, hne, hreplay⟩ := ih
    obtain ⟨t', hsp⟩ := Option.isSome_iff_exists.mp hlive
    have hro : readOnlyView p = false := by
      by_contra hro
      simp only [Bool.not_eq_false] at hro
      simp [trapDelete, hro] at hs
    have hs' : trapDelete d p k =
        some (⟨t', d.log ++ [⟨.opdelete, p ++ [k], .vnull⟩]⟩,
          ⟨(d.log.length : Int), ⟨.opdelete, p ++ [k], .vnull⟩⟩) := by
      simp only [trapDelete, hro, Bool.false_eq_true, if_false, if_neg hroot, hsp]
      simp [Int.add_sub_cancel]
    rw [hs'] at hs
    simp only [Option.some.injEq, Prod.mk.injEq] at hs
    obtain ⟨hd', hev⟩ := hs
    rw [← hd']
    refine ⟨?_, ?_, by simp, ?_⟩
    · exact WFv_delPath (p ++ [k]) d.tree t' hwt hsp
    · rcases hcons : p ++ [k] with _ | ⟨k0, prest⟩
      · exact absurd hcons (by simp)
      · rw [htree, hcons] at hsp
        obtain ⟨gs, hgs⟩ := delPath_obj_of_obj k0 prest fs t' hsp
        refine ⟨gs, hgs, ?_⟩
        have hk0 : VERSIONING_DATA_PROP ≠ k0 := by
          cases p with
          | nil =>
            simp only [List.nil_append, List.cons.injEq] at hcons
            intro e
            exact hroot ⟨rfl, (hcons.1 ▸ e.symm)⟩
          | cons a arest =>
            simp only [List.cons_append, List.cons.injEq] at hcons
            intro e
            rw [show a = VERSIONING_DATA_PROP from hcons.1.trans e.symm] at hro
            simp [readOnlyView] at hro
        rw [hgs] at hsp
        have := lookupField_delPath_head k0 prest fs gs VERSIONING_DATA_PROP hsp hk0
        rw [this]
        exact hvfs
    · rw [show (d.log ++ [(⟨OperationType.opdelete, p ++ [k], JsValue.vnull⟩ : LogEntry)]).length - 1
            = d.log.length by simp]
      rw [replayUpTo_append d.log _ hne, hreplay]
      simp [LogEntry.applyTo, hsp]

end ManagedJson

/-! Shape lemmas for the traps, and soundness of truthy navigation. -/

namespace ManagedJson

theorem trapSet_shape (d : Doc) (p : List String) (k : String) (v : JsValue)
    (d' : Doc) (ev : ChangeEvent) (h : trapSet d p k v = some (d', ev)) :
    ev.logEntry = ⟨.opset, p ++ [k], v⟩ ∧ ev.lsn = (d'.log.length : Int) - 1 ∧
    (∃ pre, d'.log = pre ++ [ev.logEntry]) ∧
    (¬(p = [] ∧ k = VERSIONING_DATA_PROP) → d'.log = d.log ++ [ev.logEntry]) := by
  by_cases hro : readOnlyView p
  · simp [trapSet, hro] at h
  · by_cases hroot : p = [] ∧ k = VERSIONING_DATA_PROP
    · obtain ⟨hp, hk⟩ := hroot
      subst hp; subst hk
      simp only [Bool.not_eq_true] at hro
      rw [trapSet, if_neg (by simp [hro]), if_pos ⟨rfl, rfl⟩] at h
      rcases hlog : JsValue.getKey v "log" with _ | lv <;> rw [hlog] at h <;> dsimp only at h
      · simp at h
      · cases lv with
        | varr es =>
          dsimp only at h
          rcases hm : mapMOption parseLogEntry es with _ | entries <;>
            rw [hm] at h <;> dsimp only at h
          · simp at h
          · simp only [Option.some.injEq, Prod.mk.injEq] at h
            obtain ⟨hd', hev⟩ := h
            rw [← hd', ← hev]
            refine ⟨rfl, by simp, ⟨entries, rfl⟩, fun hc => absurd ⟨rfl, rfl⟩ hc⟩
        | vnull => simp at h
        | vbool b => simp at h
        | vnum n => simp at h
        | vstr s => simp at h
        | vobj gs => simp at h
    · simp only [Bool.not_eq_true] at hro
      rw [trapSet, if_neg (by simp [hro]), if_neg hroot] at h
      rcases hsp : setPath d.tree (p ++ [k]) v with _ | t' <;> rw [hsp] at h
      · rcases hna : nodeAt d.tree p with _ | n <;> rw [hna] at h
        · simp only [Option.some.injEq, Prod.mk.injEq] at h
          obtain ⟨hd', hev⟩ := h
          rw [← hd', ← hev]
          exact ⟨rfl, by simp, ⟨d.log, rfl⟩, fun _ => rfl⟩
        · simp at h
      · simp only [Option.some.injEq, Prod.mk.injEq] at h
        obtain ⟨hd', hev⟩ := h
        rw [← hd', ← hev]
        exact ⟨rfl, by simp, ⟨d.log, rfl⟩, fun _ => rfl⟩

theorem trapDelete_shape (d : Doc) (p : List String) (k : String)
    (d' : Doc) (ev : ChangeEvent) (h : trapDelete d p k = some (d', ev)) :
    ev.logEntry = ⟨.opdelete, p ++ [k], .vnull⟩ ∧ ev.lsn = (d'.log.length : Int) - 1 ∧
    (∃ pre, d'.log = pre ++ [ev.logEntry]) ∧ d'.log = d.log ++ [ev.logEntry] := by
  by_cases hro : readOnlyView p
  · simp [trapDelete, hro] at h
  · by_cases hroot : p = [] ∧ k = VERSIONING_DATA_PROP
    · simp [trapDelete, hro, hroot] at h
    · simp only [Bool.not_eq_true] at hro
      rw [trapDelete, if_neg (by simp [hro]), if_neg hroot] at h
      rcases hsp : delPath d.tree (p ++ [k]) with _ | t' <;> rw [hsp] at h
      · rcases hna : nodeAt d.tree p with _ | n <;> rw [hna] at h
        · simp only [Option.some.injEq, Prod.mk.injEq] at h
          obtain ⟨hd', hev⟩ := h
          rw [← hd', ← hev]
          exact ⟨rfl, by simp, ⟨d.log, rfl⟩, rfl⟩
        · simp at h
      · simp only [Option.some.injEq, Prod.mk.injEq] at h
        obtain ⟨hd', hev⟩ := h
        rw [← hd', ← hev]
        exact ⟨rfl, by simp, ⟨d.log, rfl⟩, rfl⟩

/-- When the truthy navigation of restoreVersion returns a value, it is the
node at that path of the reconstructed tree. -/
theorem nav_sound : ∀ (p : List String) (r x : JsValue), nav r p = some x →
    nodeAt r p = some x
  | [], r, x, h => h
  | k :: rest, r, x, h => by
    simp only [nav] at h
    rcases hg : JsValue.getKey r k with _ | n <;> rw [hg] at h <;> dsimp only at h
    · simp at h
    · simp only [nodeAt, hg]
      by_cases ht : truthy n
      · rw [if_pos ht] at h
        exact nav_sound rest n x h
      · rw [if_neg ht] at h; simp at h

end ManagedJson

/-- Resolution of a view path through object nodes only: the node at the path
exists and every node along the way (the final one included) is an object.
This is the situation of a live view over an object node in a tree whose path
does not pass through an array. -/
def resolvesObjects : JsValue → List String → Bool
  | .vobj _, [] => true
  | _, [] => false
  | .vobj fs, k :: p =>
    match JsValue.lookupField fs k with
    | some n => resolvesObjects n p
    | none => false
  | _, _ :: _ => false

theorem delPath_isSome_of_resolvesObjects : ∀ (p : List String) (t : JsValue) (k : String),
    resolvesObjects t p = true → (delPath t (p ++ [k])).isSome = true
  | [], t, k, h => by
    cases t with
    | vobj fs => simp [delPath]
    | vnull => simp [resolvesObjects] at h
    | vbool b => simp [resolvesObjects] at h
    | vnum n => simp [resolvesObjects] at h
    | vstr s => simp [resolvesObjects] at h
    | varr xs => simp [resolvesObjects] at h
  | a :: rest, t, k, h => by
    cases t with
    | vobj fs =>
      simp only [resolvesObjects] at h
      rcases hg : JsValue.lookupField fs a with _ | n
      · rw [hg] at h; simp at h
      · rw [hg] at h
        obtain ⟨child', hchild'⟩ :=
          Option.isSome_iff_exists.mp (delPath_isSome_of_resolvesObjects rest n k h)
        rcases hrk : rest ++ [k] with _ | ⟨b, brest⟩
        · exact absurd hrk (by simp)
        · have hstep : delPath (JsValue.vobj fs) (a :: b :: brest) =
              (JsValue.getKey (JsValue.vobj fs) a).bind fun child =>
                (delPath child (b :: brest)).bind fun child' =>
                  some (JsValue.vobj (JsValue.setField fs a child')) := rfl
          rw [List.cons_append, hrk, hstep,
            show JsValue.getKey (JsValue.vobj fs) a = some n from hg, ← hrk]
          simp [hchild']
    | vnull => simp [resolvesObjects] at h
    | vbool b => simp [resolvesObjects] at h
    | vnum n => simp [resolvesObjects] at h
    | vstr s => simp [resolvesObjects] at h
    | varr xs => simp [resolvesObjects] at h

/-! Concrete example documents used by witnesses and counterexamples. -/

/-- The document create({prop: 41}) produces. -/
def exDocProp : Doc :=
  ⟨.vobj [("prop", .vnum 41)], [⟨.opset, [], .vobj [("prop", .vnum 41)]⟩]⟩

theorem reach_exDocProp : ManagedJson.Reach exDocProp :=
  ManagedJson.Reach.init [("prop", .vnum 41)] exDocProp (by decide) (by decide) (by decide)

/-- The document create({}) produces. -/
def exDocEmpty : Doc := ⟨.vobj [], [⟨.opset, [], .vobj []⟩]⟩

theorem reach_exDocEmpty : ManagedJson.Reach exDocEmpty :=
  ManagedJson.Reach.init [] exDocEmpty (by decide) (by decide) (by decide)

/-- The document reached from create({}) by the write of key a with value {}
through the root view (the state after the script of scenario S2 up to its
second statement). -/
def exDocA : Doc :=
  ⟨.vobj [("a", .vobj [])], [⟨.opset, [], .vobj []⟩, ⟨.opset, ["a"], .vobj []⟩]⟩

theorem reach_exDocA : ManagedJson.Reach exDocA :=
  ManagedJson.Reach.step_set exDocEmpty exDocA
    ⟨1, ⟨.opset, ["a"], .vobj []⟩⟩ [] "a" (.vobj [])
    reach_exDocEmpty (by decide) (by decide) (by decide) (by decide)

/-! Claim C1. -/

/-- Claim C1: for every managed document D and every integer k with
0 ≤ k < versionCount(D), restoreVersion(D, k) called on a root view (view
path []) returns a plain value structurally equal to the result of
deep-cloning log[0].value and applying log[1..k] to it in order (here the
replay replayUpTo, whose success over the reachable documents is part of the
statement). -/
theorem C1_restoreVersion_root (d : Doc) (hr : ManagedJson.Reach d) (k : Nat)
    (hk : k < ManagedJson.versionCount d) :
    ∃ r, ManagedJson.replayUpTo d.log k = some r ∧
      ManagedJson.restoreVersion d [] k = some (some r) := by
  obtain ⟨-, -, -, hreplay⟩ := ManagedJson.reach_inv hr
  have hsome : (ManagedJson.replayUpTo d.log k).isSome = true :=
    ManagedJson.replayUpTo_isSome_of_le d.log k (by rw [hreplay]; rfl)
  obtain ⟨r, hrr⟩ := Option.isSome_iff_exists.mp hsome
  refine ⟨r, hrr, ?_⟩
  have hk' : k < d.log.length := hk
  simp [ManagedJson.restoreVersion, hk', hrr, ManagedJson.nav]

/-- Witness for C1 at the document create({prop: 41}) and version 0. -/
theorem C1_witness :
    ∃ r, ManagedJson.replayUpTo exDocProp.log 0 = some r ∧
      ManagedJson.restoreVersion exDocProp [] 0 = some (some r) :=
  C1_restoreVersion_root exDocProp reach_exDocProp 0 (by decide)

/-! Claim C2. -/

/-- The document create({__versioning__: false}) produces: isManageable admits
the input, the falsy "__versioning__" value selects the fresh-install branch,
entry 0 clones the whole input (the falsy field included) and the versioning
block then overwrites that field in the root. -/
def exDocC2bad : Doc :=
  ⟨.vobj [], [⟨.opset, [], .vobj [("__versioning__", .vbool false)]⟩]⟩

/-- The document create(0) produces: isManageable admits the scalar, the
falsy clone is replaced by the empty object as the working copy, and entry 0
clones the original scalar. -/
def exDocC2scalar : Doc := ⟨.vobj [], [⟨.opset, [], .vnum 0⟩]⟩

/-- Counterexample to claim C2 as stated, in two instances.  For the managed
document D = create({__versioning__: false}), re-attaching its preserved form
fails: the replay of the log yields entry 0's value, which still carries the
falsy "__versioning__" field, while the tree with the versioning block
removed does not, so the a/b comparison of create rejects it.  And create(0)
succeeds too — the falsy clone of the scalar is replaced by the empty object
while entry 0 keeps the scalar — and re-attaching its preserved form then
compares 0 with the empty object and fails as well.  Hence
create(detachPreserveVersionData(D)) does not succeed for every managed D. -/
theorem C2_counterexample :
    (ManagedJson.create (.vobj [("__versioning__", .vbool false)]) = some exDocC2bad ∧
      ManagedJson.create (ManagedJson.detachPreserveVersionData exDocC2bad) = none) ∧
    (ManagedJson.create (.vnum 0) = some exDocC2scalar ∧
      ManagedJson.create (ManagedJson.detachPreserveVersionData exDocC2scalar) = none) := by
  refine ⟨⟨by decide, by decide⟩, ⟨by decide, by decide⟩⟩

/-- Claim C2 (amended): for every managed document created from an object
input without a root "__versioning__" key and mutated through live views (the
documents of Reach), create(detachPreserveVersionData(D)) succeeds — the
re-attach replay validation passes — and detaching the re-attached document
gives the same plain value as detaching D, namely the user tree.  The object
restriction excludes the falsy scalars create also accepts (see the
counterexample), whose entry 0 holds the scalar while the tree is empty. -/
theorem C2_amended_roundtrip (d : Doc) (hr : ManagedJson.Reach d) :
    ∃ e, ManagedJson.create (ManagedJson.detachPreserveVersionData d) = some e ∧
      ManagedJson.detach e [] = ManagedJson.detach d [] ∧
      ManagedJson.detach d [] = some d.tree := by
  obtain ⟨hwt, ⟨fs, htree, hvfs⟩, hne, hreplay⟩ := ManagedJson.reach_inv hr
  have hb : JsValue.removeField
      (fs ++ [(VERSIONING_DATA_PROP, ManagedJson.versioningJson d.log)])
      VERSIONING_DATA_PROP = fs := by
    rw [JsValue.removeField_append, JsValue.removeField_of_lookup_none fs _ hvfs]
    simp [JsValue.removeField]
  have hlookup : JsValue.lookupField
      (fs ++ [(VERSIONING_DATA_PROP, ManagedJson.versioningJson d.log)])
      VERSIONING_DATA_PROP = some (ManagedJson.versioningJson d.log) := by
    rw [JsValue.lookupField_append_left fs _ _ hvfs]
    simp [JsValue.lookupField]
  have hdetach : ManagedJson.detach d [] = some d.tree := by
    simp only [ManagedJson.detach, ManagedJson.encodeRoot, htree, JsValue.nodeAt,
      Option.map_some', ManagedJson.stripRootVersioning]
    rw [hb, ← htree]
  refine ⟨d, ?_, rfl, hdetach⟩
  have hcreate : ManagedJson.create (ManagedJson.detachPreserveVersionData d) =
      some ⟨.vobj fs, d.log⟩ := by
    simp only [ManagedJson.detachPreserveVersionData, ManagedJson.encodeRoot, htree]
    simp only [ManagedJson.create, hlookup]
    rw [if_pos (show truthy (ManagedJson.versioningJson d.log) = true from rfl)]
    rw [show JsValue.getKey (ManagedJson.versioningJson d.log) "log" =
      some (.varr (d.log.map logEntryToJson)) from rfl]
    dsimp only
    rw [mapM_parse_map_encode d.log]
    dsimp only
    rw [show ManagedJson.replayUpTo d.log (d.log.length - 1) = some d.tree from hreplay]
    dsimp only
    rw [hb, htree]
    rw [if_pos (jsEqual_rfl (.vobj fs) (htree ▸ hwt))]
  rw [hcreate, ← htree]

/-- Witness for the amended C2 at the document create({prop: 41}). -/
theorem C2_witness :
    ∃ e, ManagedJson.create (ManagedJson.detachPreserveVersionData exDocProp) = some e ∧
      ManagedJson.detach e [] = ManagedJson.detach exDocProp [] ∧
      ManagedJson.detach exDocProp [] = some exDocProp.tree :=
  C2_amended_roundtrip exDocProp reach_exDocProp

/-! Claim C3. -/

/-- Counterexample to claim C3 as stated: on the document create({prop: 41}),
the root-view write of the key "__versioning__" itself with the value
{log: []} is not prevented — the set trap has no guard for the reserved key,
Reflect.set replaces the versioning block, and the entry is pushed onto the
log of the new block — so a write targeting "__versioning__" succeeds and the
log afterwards differs from the log before. -/
theorem C3_counterexample :
    (ManagedJson.trapSet exDocProp [] "__versioning__"
      (.vobj [("log", .varr [])])).isSome = true ∧
    (ManagedJson.trapSet exDocProp [] "__versioning__"
      (.vobj [("log", .varr [])])).map (fun r => r.1.log) ≠ some exDocProp.log := by
  constructor
  · decide
  · decide

/-- Claim C3 (amended): every write and every delete through a view whose path
enters the versioning block — the view of "__versioning__" itself, of the log
array, of its entries and of anything below — fails, because those views carry
the read-only flag, and the failure is raised before anything is touched, so
tree and log are unchanged.  Replacing or deleting "__versioning__" itself
through the root view is not prevented (see the counterexample). -/
theorem C3_amended_versioning_read_only (d : Doc) (p : List String) (k : String)
    (v : JsValue) (hp : ManagedJson.readOnlyView p = true) :
    ManagedJson.trapSet d p k v = none ∧ ManagedJson.trapDelete d p k = none := by
  constructor
  · simp [ManagedJson.trapSet, hp]
  · simp [ManagedJson.trapDelete, hp]

/-- Witness for the amended C3: the write and the delete of the key "log" on
the view of the versioning block of create({prop: 41}) both fail. -/
theorem C3_witness :
    ManagedJson.trapSet exDocProp ["__versioning__"] "log" (.vobj []) = none ∧
    ManagedJson.trapDelete exDocProp ["__versioning__"] "log" = none :=
  C3_amended_versioning_read_only exDocProp ["__versioning__"] "log" (.vobj []) (by decide)

/-! Claim C4. -/

/-- The document reached from create({prop: 41}) by the root write x := 1. -/
def exDocC4 : Doc :=
  ⟨.vobj [("prop", .vnum 41), ("x", .vnum 1)],
   [⟨.opset, [], .vobj [("prop", .vnum 41)]⟩, ⟨.opset, ["x"], .vnum 1⟩]⟩

/-- Counterexample to claim C4 as stated: after the write x := 1 on
create({prop: 41}) emits lsn 1, the unguarded root write of "__versioning__"
with {log: []} is a successful SET through a view, yet it emits lsn 0 — the
entry is pushed onto the log of the replacement block — so across these two
consecutive mutations the emitted lsn does not increase by 1. -/
theorem C4_counterexample :
    ManagedJson.applyMutation exDocProp (.mset [] "x" (.vnum 1)) =
      some (exDocC4, ⟨1, ⟨.opset, ["x"], .vnum 1⟩⟩) ∧
    ManagedJson.applyMutation exDocC4
        (.mset [] "__versioning__" (.vobj [("log", .varr [])])) =
      some (⟨exDocC4.tree, [⟨.opset, ["__versioning__"], .vobj [("log", .varr [])]⟩]⟩,
        ⟨0, ⟨.opset, ["__versioning__"], .vobj [("log", .varr [])]⟩⟩) ∧
    (0 : Int) ≠ 1 + 1 := by
  refine ⟨by decide, by decide, by decide⟩

/-- Claim C4 (amended): every successful SET or DELETE through a view pushes
exactly one log entry and emits, after the push, exactly one change event
whose lsn is the index of that entry, log.length - 1 after the push; and
across consecutive successful mutations whose second one does not replace the
versioning block at the root, the emitted lsn increases by exactly 1. -/
theorem C4_amended_lsn (d d1 : Doc) (ev1 : ManagedJson.ChangeEvent)
    (m1 : ManagedJson.Mutation)
    (h1 : ManagedJson.applyMutation d m1 = some (d1, ev1)) :
    ev1.lsn = (d1.log.length : Int) - 1 ∧
    d1.log.getLast? = some ev1.logEntry ∧
    (¬ m1.replacesVersioning → d1.log = d.log ++ [ev1.logEntry]) ∧
    (∀ d2 ev2 m2, ManagedJson.applyMutation d1 m2 = some (d2, ev2) →
      ¬ m2.replacesVersioning → ev2.lsn = ev1.lsn + 1) := by
  have shape : ∀ (e : Doc) (de : Doc) (eve : ManagedJson.ChangeEvent)
      (me : ManagedJson.Mutation),
      ManagedJson.applyMutation e me = some (de, eve) →
      eve.lsn = (de.log.length : Int) - 1 ∧ (∃ pre, de.log = pre ++ [eve.logEntry]) ∧
      (¬ me.replacesVersioning → de.log = e.log ++ [eve.logEntry]) := by
    intro e de eve me h
    cases me with
    | mset p k v =>
      obtain ⟨h1', h2', h3', h4'⟩ := ManagedJson.trapSet_shape e p k v de eve h
      exact ⟨h2', h3', fun hm => h4' hm⟩
    | mdelete p k =>
      obtain ⟨h1', h2', h3', h4'⟩ := ManagedJson.trapDelete_shape e p k de eve h
      exact ⟨h2', h3', fun _ => h4'⟩
  obtain ⟨hlsn1, ⟨pre1, hpre1⟩, happ1⟩ := shape d d1 ev1 m1 h1
  refine ⟨hlsn1, by rw [hpre1]; exact List.getLast?_concat _, happ1, ?_⟩
  intro d2 ev2 m2 h2 hm2
  obtain ⟨hlsn2, -, happ2⟩ := shape d1 d2 ev2 m2 h2
  rw [hlsn2, happ2 hm2, hlsn1]
  simp

/-- Witness for the amended C4: two consecutive root writes on
create({prop: 41}). -/
theorem C4_witness :
    (⟨1, ⟨.opset, ["x"], .vnum 1⟩⟩ : ManagedJson.ChangeEvent).lsn =
        ((exDocC4.log.length : Int)) - 1 ∧
      exDocC4.log.getLast? = some (⟨.opset, ["x"], .vnum 1⟩ : LogEntry) := by
  have h := C4_amended_lsn exDocProp exDocC4 ⟨1, ⟨.opset, ["x"], .vnum 1⟩⟩
    (.mset [] "x" (.vnum 1)) (by decide)
  exact ⟨h.1, h.2.1⟩

/-! Claim C5. -/

/-- Claim C6 is a bug in the code: the set trap checks only isValidProperty
and isAssignable, and isAssignable cannot recognise a managed view — the
hidden accessors are served by the get trap for symbol keys only and are not
own properties of the target, so the walk of isAssignable observes just the
plain underlying data (the versioning block included, for a root view) and
accepts it.  The repo's own test (managed_json.test.js, "Attaching a managed
object to another one must throw") expects m1.other = m2 to throw; the code
instead performs the assignment and appends a log entry.  This theorem
evaluates the model at that input: assigning under the key "other" the value
a root managed view exposes — its underlying root object, versioning block
included — succeeds on the document create({}), appends exactly one SET
entry and emits a change event, with no cross-attachment failure. -/
theorem C6_cross_attachment_not_rejected :
    ManagedJson.trapSet exDocEmpty [] "other"
        (ManagedJson.detachPreserveVersionData exDocProp) =
      some (⟨.vobj [("other", ManagedJson.detachPreserveVersionData exDocProp)],
          [⟨.opset, [], .vobj []⟩,
           ⟨.opset, ["other"], ManagedJson.detachPreserveVersionData exDocProp⟩]⟩,
        ⟨1, ⟨.opset, ["other"], ManagedJson.detachPreserveVersionData exDocProp⟩⟩) := by
  decide

/-! Claim C7. -/

/-- The document reached from create({a: {b: {}}}) by delete a on the root
view: the subtree at a (with its child b) is detached, but a view of the node
at path [a, b] taken before the delete still holds it. -/
def exDocOrphan : Doc :=
  ⟨.vobj [], [⟨.opset, [], .vobj [("a", .vobj [("b", .vobj [])])]⟩,
    ⟨.opdelete, ["a"], .vnull⟩]⟩

/-- Claim C7 is a bug in the code: the set trap never re-walks the view's
path, so a write through a view whose ancestor was deleted succeeds on the
detached target instead of failing with an OrphanedView error.  The repo's
own test (managed_json.test.js, "Modifying an orphaned nested managed object
must throw") expects ab.must = 'fail' to throw after delete m.a; the code
instead mutates the detached subtree — invisibly to the root tree — and still
appends a log entry and emits an event.  This theorem evaluates the model at
that input: after create({a:{b:{}}}) and the delete of a, the path [a, b] no
longer resolves, yet the write of key "must" through the stale view succeeds,
leaves the root tree unchanged, and appends a SET entry with the stale path
(an entry whose replay can never succeed). -/
theorem C7_orphan_write_not_rejected :
    ManagedJson.trapDelete ⟨.vobj [("a", .vobj [("b", .vobj [])])],
        [⟨.opset, [], .vobj [("a", .vobj [("b", .vobj [])])]⟩]⟩ [] "a" =
      some (exDocOrphan, ⟨1, ⟨.opdelete, ["a"], .vnull⟩⟩) ∧
    JsValue.nodeAt exDocOrphan.tree ["a", "b"] = none ∧
    ManagedJson.trapSet exDocOrphan ["a", "b"] "must" (.vstr "fail") =
      some (⟨exDocOrphan.tree,
          exDocOrphan.log ++ [⟨.opset, ["a", "b", "must"], .vstr "fail"⟩]⟩,
        ⟨2, ⟨.opset, ["a", "b", "must"], .vstr "fail"⟩⟩) := by
  refine ⟨by decide, by decide, by decide⟩

/-! Claim C8. -/

/-- Modelled from the spec's words, for comparison with the source (claim C8):
the deepest resolvable value along a path — walk the path and, at the first
key whose lookup yields undefined, return the value reached so far. -/
def navDeepestSpec : JsValue → List String → JsValue
  | o, [] => o
  | o, k :: p =>
    match JsValue.getKey o k with
    | some n => navDeepestSpec n p
    | none => o

/-- Counterexample to claim C8 as stated: on the document reached by
create({}); D.a = {}, the nested view at path [a] asked for version 0 — an
era before a existed — gets undefined back (the nav helper of restoreVersion
falls through to undefined when a lookup fails), not the deepest resolvable
value, which per the spec's words would be the reconstructed root {}
itself. -/
theorem C8_counterexample :
    ManagedJson.restoreVersion exDocA ["a"] 0 = some none ∧
    ManagedJson.restoreVersion exDocA ["a"] 0 ≠
      some (some (navDeepestSpec (.vobj []) ["a"])) := by
  refine ⟨by decide, by decide⟩

/-- Claim C8 (amended): restoreVersion on a nested view navigates the
reconstructed historical tree along the view's current path and returns the
sub-tree at that path provided every step of the walk yields a truthy value;
when the path does not resolve that way — a missing key, or a falsy value on
the way — it returns undefined (no value) rather than raising.  Whenever the
walk does return a value, that value is the node at the view's path of the
reconstructed tree. -/
theorem C8_amended_nested_restore (d : Doc) (p : List String) (k : Nat) (r : JsValue)
    (hk : k < ManagedJson.versionCount d) (hr : ManagedJson.replayUpTo d.log k = some r) :
    ManagedJson.restoreVersion d p k = some (ManagedJson.nav r p) ∧
    (∀ x, ManagedJson.nav r p = some x → JsValue.nodeAt r p = some x) := by
  have hk' : k < d.log.length := hk
  constructor
  · simp [ManagedJson.restoreVersion, hk', hr]
  · intro x hx
    exact ManagedJson.nav_sound p r x hx

/-- Witness for the amended C8 at the document of the counterexample and
version 1, where the path [a] fully resolves in the reconstructed tree. -/
theorem C8_witness :
    ManagedJson.restoreVersion exDocA ["a"] 1 =
      some (ManagedJson.nav (.vobj [("a", .vobj [])]) ["a"]) ∧
    (∀ x, ManagedJson.nav (.vobj [("a", .vobj [])]) ["a"] = some x →
      JsValue.nodeAt (.vobj [("a", .vobj [])]) ["a"] = some x) :=
  C8_amended_nested_restore exDocA ["a"] 1 (.vobj [("a", .vobj [])])
    (by decide) (by decide)

/-! Claim C9. -/

/-- Counterexample to claim C9 as stated: the root view is writable and
"__versioning__" is a string key, yet deleting it does not append a DELETE
entry — Reflect.deleteProperty removes the versioning block and the
subsequent log fetch raises, so the delete fails (and the source has by then
lost the block) instead of growing the version count by 1. -/
theorem C9_counterexample :
    ManagedJson.readOnlyView [] = false ∧
    ManagedJson.trapDelete exDocProp [] "__versioning__" = none := by
  refine ⟨by decide, by decide⟩

/-- Claim C9 (amended): deleting any string key other than "__versioning__"
at the root, through a writable live view over an object node (a path
resolving through objects), appends exactly one DELETE entry whose path is
the view's path extended by the key and whose value is null, and emits one
change event; the version count grows by exactly 1 — also when the key is
absent from the container, since the delete operator reports success on
absent keys. -/
theorem C9_amended_delete_appends (d : Doc) (p : List String) (k : String)
    (hro : ManagedJson.readOnlyView p = false)
    (hroot : ¬(p = [] ∧ k = VERSIONING_DATA_PROP))
    (hobj : resolvesObjects d.tree p = true) :
    ∃ d', ManagedJson.trapDelete d p k =
        some (d', ⟨(d.log.length : Int), ⟨.opdelete, p ++ [k], .vnull⟩⟩) ∧
      d'.log = d.log ++ [⟨.opdelete, p ++ [k], .vnull⟩] ∧
      ManagedJson.versionCount d' = ManagedJson.versionCount d + 1 := by
  obtain ⟨t', hsp⟩ := Option.isSome_iff_exists.mp
    (delPath_isSome_of_resolvesObjects p d.tree k hobj)
  refine ⟨⟨t', d.log ++ [⟨.opdelete, p ++ [k], .vnull⟩]⟩, ?_, rfl, by
    simp [ManagedJson.versionCount]⟩
  rw [ManagedJson.trapDelete, if_neg (by simp [hro]), if_neg hroot, hsp]
  simp [Int.add_sub_cancel]

/-- Witness for the amended C9: deleting the absent key zzz on the root view
of create({prop: 41}) appends a DELETE entry and bumps the version count. -/
theorem C9_witness :
    ∃ d', ManagedJson.trapDelete exDocProp [] "zzz" =
        some (d', ⟨(exDocProp.log.length : Int), ⟨.opdelete, ["zzz"], .vnull⟩⟩) ∧
      d'.log = exDocProp.log ++ [⟨.opdelete, ["zzz"], .vnull⟩] ∧
      ManagedJson.versionCount d' = ManagedJson.versionCount exDocProp + 1 :=
  C9_amended_delete_appends exDocProp [] "zzz" (by decide) (by decide) (by decide)

/-! Claim C10. -/

theorem lookupField_removeField_self : ∀ (fs : List (String × JsValue)) (k : String),
    JsValue.lookupField (JsValue.removeField fs k) k = none
  | [], _ => rfl
  | (k', v') :: rest, k => by
    by_cases hk : k' = k
    · simp only [JsValue.removeField, if_pos hk]
      exact lookupField_removeField_self rest k
    · simp only [JsValue.removeField, if_neg hk, JsValue.lookupField, if_neg hk]
      exact lookupField_removeField_self rest k

/-- Claim C10: detach on a nested view (non-empty path) deep-copies only the
node at the view's path — the copy of the proxied view reads exactly that
node, not the whole root — and removes a root-level "__versioning__" field
from the copy (a no-op unless the subtree happens to carry such a key); the
returned value carries no "__versioning__" key and, being a plain value of
the model, is not managed. -/
theorem C10_detach_nested (d : Doc) (p : List String) (n : JsValue)
    (_hp : p ≠ []) (hn : JsValue.nodeAt (ManagedJson.encodeRoot d) p = some n) :
    ManagedJson.detach d p = some (ManagedJson.stripRootVersioning n) ∧
    (∀ fs', ManagedJson.detach d p = some (.vobj fs') →
      JsValue.lookupField fs' VERSIONING_DATA_PROP = none) := by
  have hd : ManagedJson.detach d p = some (ManagedJson.stripRootVersioning n) := by
    unfold ManagedJson.detach
    simp only [hn, Option.map_some']
  refine ⟨hd, ?_⟩
  intro fs' hfs'
  rw [hd] at hfs'
  simp only [Option.some.injEq] at hfs'
  cases n with
  | vobj fs =>
    simp only [ManagedJson.stripRootVersioning, JsValue.vobj.injEq] at hfs'
    rw [← hfs']
    exact lookupField_removeField_self fs VERSIONING_DATA_PROP
  | vnull => simp [ManagedJson.stripRootVersioning] at hfs'
  | vbool b => simp [ManagedJson.stripRootVersioning] at hfs'
  | vnum m => simp [ManagedJson.stripRootVersioning] at hfs'
  | vstr s => simp [ManagedJson.stripRootVersioning] at hfs'
  | varr xs => simp [ManagedJson.stripRootVersioning] at hfs'

/-- Witness for C10: detaching the nested view at path [a] of the document
reached by create({}); D.a = {} returns only the subtree {} at that path. -/
theorem C10_witness :
    ManagedJson.detach exDocA ["a"] = some (ManagedJson.stripRootVersioning (.vobj [])) ∧
    (∀ fs', ManagedJson.detach exDocA ["a"] = some (.vobj fs') →
      JsValue.lookupField fs' VERSIONING_DATA_PROP = none) :=
  C10_detach_nested exDocA ["a"] (.vobj []) (by decide) (by decide)
